import Mathlib

/-
Verification of the radmc3dPy image module (src/radmc3dPy/image.py).

Shallow embedding of the data model and the numerical operations of the
module: the image cube produced by the loader, the discrete-Fourier
visibility engine (radmc3dImage.getVisibility), the closure-phase wrap
(radmc3dImage.getClosurePhase), the Gaussian PSF generator (getPSF), the
FFT convolution pipeline (radmc3dImage.imConv) and the coronographic mask
(cmask).  Floating-point arithmetic of the source is modelled over the
real numbers; numpy arrays are modelled as total functions on indices,
with every theorem restricted to the in-range indices the source touches.
Python 2 integer division (nx/2) is modelled with natural division.
-/

noncomputable section

open Finset

/-- Image cube as produced by radmc3dImage.readImage (ASCII branch,
iformat 1, non-Stokes layout): a 3-D intensity array indexed
[ix, iy, iwav], the pixel grid sizes, the pixel sizes in cm and the
wavelength grid.  The provenance fields psf, fwhm, pa, dpc are
initialised by radmc3dImage.__init__ and rewritten by imConv. -/
structure ImageCube where
  nx : ℕ
  ny : ℕ
  nfreq : ℕ
  sizepix_x : ℝ
  sizepix_y : ℝ
  image : ℕ → ℕ → ℕ → ℝ
  imageJyppix : ℕ → ℕ → ℕ → ℝ
  wav : ℕ → ℝ
  freq : ℕ → ℝ
  stokes : Bool
  fwhm : List ℝ
  pa : ℝ
  dpc : ℝ
  psf : ℕ → ℕ → ℝ

/-- Pixel-centre x coordinate set by readImage:
x = ((arange(nx) + 0.5) - nx/2) * sizepix_x, with Python 2 integer
division nx/2. -/
def xcoord (c : ImageCube) (i : ℕ) : ℝ :=
  ((i : ℝ) + 0.5 - ((c.nx / 2 : ℕ) : ℝ)) * c.sizepix_x

/-- Pixel-centre y coordinate set by readImage. -/
def ycoord (c : ImageCube) (i : ℕ) : ℝ :=
  ((i : ℝ) + 0.5 - ((c.ny / 2 : ℕ) : ℝ)) * c.sizepix_y

/-- Python float modulo x % y = x - y*floor(x/y) (result in [0, y) for
positive y). -/
def pymod (x y : ℝ) : ℝ := x - y * (⌊x / y⌋ : ℤ)

/-- Closure-phase wrap of getClosurePhase lines 157-160: the raw summed
phase in degrees is reduced modulo 360 and, when the result exceeds 180,
shifted down by 360. -/
def cpWrapDeg (s : ℝ) : ℝ :=
  if 180 < pymod s 360 then pymod s 360 - 360 else pymod s 360

/-- Baseline element access res['bl'][ibl] (numpy float array built from
the input list). -/
def blAt (bl : List ℝ) (i : ℕ) : ℝ := bl.getD i 0

/-- Position-angle element access with numpy length-1 broadcasting: a
single position angle is recycled for every baseline. -/
def paAt (pa : List ℝ) (i : ℕ) : ℝ :=
  if pa.length = 1 then pa.getD 0 0 else pa.getD i 0

/-- Angular sky coordinate of getVisibility line 210:
l = x / 1.496e13 / dpc / 3600 / 180 * pi. -/
def lcoord (c : ImageCube) (dpc : ℝ) (i : ℕ) : ℝ :=
  xcoord c i / 1.496e13 / dpc / 3600 / 180 * Real.pi

/-- Angular sky coordinate of getVisibility line 211 (y axis). -/
def mcoord (c : ImageCube) (dpc : ℝ) (i : ℕ) : ℝ :=
  ycoord c i / 1.496e13 / dpc / 3600 / 180 * Real.pi

/-- Pixel solid-angle element dl = l[1] - l[0] (getVisibility line 212;
raises IndexError in the source when nx < 2). -/
def dlOf (c : ImageCube) (dpc : ℝ) : ℝ := lcoord c dpc 1 - lcoord c dpc 0

/-- Pixel solid-angle element dm = m[1] - m[0] (getVisibility line 213). -/
def dmOf (c : ImageCube) (dpc : ℝ) : ℝ := mcoord c dpc 1 - mcoord c dpc 0

/-- Spatial frequency u = bl * cos(pa) * 1e6 / wav[iwav] (getVisibility
line 218; the position angle is passed to cos as supplied). -/
def uSF (c : ImageCube) (bl pa : List ℝ) (ibl iwav : ℕ) : ℝ :=
  blAt bl ibl * Real.cos (paAt pa ibl) * 1e6 / c.wav iwav

/-- Spatial frequency v = bl * sin(pa) * 1e6 / wav[iwav] (getVisibility
line 219). -/
def vSF (c : ImageCube) (bl pa : List ℝ) (ibl iwav : ℕ) : ℝ :=
  blAt bl ibl * Real.sin (paAt pa ibl) * 1e6 / c.wav iwav

/-- Per-pixel Fourier phase 2*pi*(u*l[il] + v*m[iy]) (getVisibility
line 230). -/
def pixPhase (c : ImageCube) (bl pa : List ℝ) (dpc : ℝ)
    (ibl iwav il iy : ℕ) : ℝ :=
  2 * Real.pi * (uSF c bl pa ibl iwav * lcoord c dpc il +
    vSF c bl pa ibl iwav * mcoord c dpc iy)

/-- Complex visibility assembled by the double loop of getVisibility
lines 222-234: for each image row il the row sum of
image[il,iy,iwav]*(cos(phase) + i*(-sin(phase))) is multiplied by dl*dm
and accumulated. -/
def visSum (c : ImageCube) (bl pa : List ℝ) (dpc : ℝ) (ibl iwav : ℕ) : ℂ :=
  ∑ il ∈ Finset.range c.nx,
    (∑ iy ∈ Finset.range c.ny,
      ((c.image il iy iwav : ℝ) : ℂ) *
        ((Real.cos (pixPhase c bl pa dpc ibl iwav il iy) : ℝ) +
          Complex.I * ((-Real.sin (pixPhase c bl pa dpc ibl iwav il iy) : ℝ) : ℂ))) *
      ((dlOf c dpc : ℝ) : ℂ) * ((dmOf c dpc : ℝ) : ℂ)

/-- Correlation amplitude of getVisibility line 236:
amp = sqrt(abs(dum * conj(dum))). -/
def ampOf (z : ℂ) : ℝ := Real.sqrt (Complex.abs (z * (starRingEnd ℂ) z))

/-- Fourier phase of getVisibility lines 237-239:
phase = arccos(re(dum)/amp), replaced by 2*pi - phase when im(dum) < 0. -/
def phaseOf (z : ℂ) : ℝ :=
  if z.im < 0 then 2 * Real.pi - Real.arccos (z.re / ampOf z)
  else Real.arccos (z.re / ampOf z)

/-- Result record of getVisibility (the arrays of the returned
dictionary, as functions of baseline index and wavelength index). -/
structure VisResult where
  nbl : ℕ
  nwav : ℕ
  u : ℕ → ℕ → ℝ
  v : ℕ → ℕ → ℝ
  vis : ℕ → ℕ → ℂ
  amp : ℕ → ℕ → ℝ
  phase : ℕ → ℕ → ℝ

/-- Successful computation of getVisibility (the body once no exception
is raised). -/
def visCompute (c : ImageCube) (bl pa : List ℝ) (dpc : ℝ) : VisResult where
  nbl := bl.length
  nwav := c.nfreq
  u := fun ibl iwav => uSF c bl pa ibl iwav
  v := fun ibl iwav => vSF c bl pa ibl iwav
  vis := fun ibl iwav => visSum c bl pa dpc ibl iwav
  amp := fun ibl iwav => ampOf (visSum c bl pa dpc ibl iwav)
  phase := fun ibl iwav => phaseOf (visSum c bl pa dpc ibl iwav)

/-- Exceptions getVisibility can actually raise: an IndexError from
l[1]/m[1] when the image has fewer than two pixels on an axis
(lines 212-213), and a numpy broadcasting ValueError from
res['u'][:,iwav] = res['bl']*cos(res['pa'])*1e6/wav (line 218) when the
position-angle array has length different from 1 and from the baseline
count.  The source contains no other failure path: dpc is never
validated. -/
inductive VisErr where
  | indexError : VisErr
  | broadcastError : VisErr
deriving DecidableEq

/-- getVisibility as observed by a caller: it either raises one of the
two genuine exceptions above or returns the computed dictionary.  The
broadcasting error fires only when the wavelength loop runs at least
once (nfreq >= 1). -/
def getVisibility (c : ImageCube) (bl pa : List ℝ) (dpc : ℝ) :
    Except VisErr VisResult :=
  if c.nx < 2 ∨ c.ny < 2 then .error .indexError
  else if 1 ≤ c.nfreq ∧ pa.length ≠ 1 ∧ pa.length ≠ bl.length then
    .error .broadcastError
  else .ok (visCompute c bl pa dpc)

/-- True exactly when the call returned normally. -/
def visOk (r : Except VisErr VisResult) : Bool :=
  match r with
  | .ok _ => true
  | .error _ => false

/-- Method names defined on the class radmc3dImage in the source. -/
def radmc3dImageMethods : List String :=
  ["getClosurePhase", "getVisibility", "writeFits", "plotMomentMap",
   "getMomentMap", "readImage", "imConv"]

/-- Closure phases of getClosurePhase lines 148-160 with the call slip
fixed: the source invokes self.get_visibility, a method that does not
exist on the class (the visibility engine is named getVisibility), so
the loop body is executed here with the call dispatched to the defined
method.  Per triangle and wavelength the three visibility phases are
summed, converted to degrees and wrapped by cpWrapDeg. -/
def closurePhasesFixed (c : ImageCube) (bl pa : List (List ℝ)) (dpc : ℝ) :
    ℕ → ℕ → ℝ := fun itri iwav =>
  cpWrapDeg
    ((∑ i ∈ Finset.range 3,
      (visCompute c (bl.getD itri []) (pa.getD itri []) dpc).phase i iwav) /
      Real.pi * 180)

/-- Gaussian standard deviation of getPSF lines 823-824:
sigma = fwhm / (2*sqrt(2*log 2)). -/
def sigmaOf (f : ℝ) : ℝ := f / (2 * Real.sqrt (2 * Real.log 2))

/-- Normalisation constant of getPSF line 825:
norm = 1/(2*pi*sigmax*sigmay). -/
def psfNorm (fwhm : ℝ × ℝ) : ℝ :=
  1 / (2 * Real.pi * sigmaOf fwhm.1 * sigmaOf fwhm.2)

/-- PSF coordinate axis of getPSF lines 819-820:
x = (arange(n) - n/2) * d, with Python 2 integer division n/2. -/
def psfAxis (n : ℕ) (d : ℝ) (i : ℕ) : ℝ := ((i : ℝ) - ((n / 2 : ℕ) : ℝ)) * d

/-- Rotation sine of getPSF line 830: sin(pa/180*pi - pi/2). -/
def sinPA (pa : ℝ) : ℝ := Real.sin (pa / 180 * Real.pi - Real.pi / 2)

/-- Rotation cosine of getPSF line 831: cos(pa/180*pi - pi/2). -/
def cosPA (pa : ℝ) : ℝ := Real.cos (pa / 180 * Real.pi - Real.pi / 2)

/-- Unnormalised kernel of getPSF lines 835-840: the elliptical Gaussian
evaluated on the rotated coordinates. -/
def psfRaw (nx ny : ℕ) (fwhm : ℝ × ℝ) (pa : ℝ) (pscale : ℝ × ℝ)
    (ix iy : ℕ) : ℝ :=
  Real.exp
    (-0.5 * (cosPA pa * psfAxis nx pscale.1 ix - sinPA pa * psfAxis ny pscale.2 iy) *
        (cosPA pa * psfAxis nx pscale.1 ix - sinPA pa * psfAxis ny pscale.2 iy) /
        sigmaOf fwhm.1 / sigmaOf fwhm.1 -
      0.5 * (sinPA pa * psfAxis nx pscale.1 ix + cosPA pa * psfAxis ny pscale.2 iy) *
        (sinPA pa * psfAxis nx pscale.1 ix + cosPA pa * psfAxis ny pscale.2 iy) /
        sigmaOf fwhm.2 / sigmaOf fwhm.2)

/-- Return value of getPSF: the kernel and its two coordinate axes. -/
structure PSFResult where
  psf : ℕ → ℕ → ℝ
  x : ℕ → ℝ
  y : ℕ → ℝ

/-- getPSF lines 810-848: builds the raw elliptical Gaussian and divides
every value by norm (line 844: psf = psf / norm). -/
def getPSF (nx ny : ℕ) (fwhm : ℝ × ℝ) (pa : ℝ) (pscale : ℝ × ℝ) : PSFResult where
  psf := fun ix iy => psfRaw nx ny fwhm pa pscale ix iy / psfNorm fwhm
  x := psfAxis nx pscale.1
  y := psfAxis ny pscale.2

/-- Two-dimensional discrete Fourier transform (numpy fft.fft2 on an
nx-by-ny array). -/
def fft2 (nx ny : ℕ) (f : ℕ → ℕ → ℂ) (k l : ℕ) : ℂ :=
  ∑ a ∈ Finset.range nx, ∑ b ∈ Finset.range ny,
    f a b * Complex.exp (-2 * Real.pi * Complex.I *
      ((k : ℂ) * (a : ℂ) / (nx : ℂ) + (l : ℂ) * (b : ℂ) / (ny : ℂ)))

/-- Two-dimensional inverse discrete Fourier transform (numpy
fft.ifft2). -/
def ifft2 (nx ny : ℕ) (F : ℕ → ℕ → ℂ) (a b : ℕ) : ℂ :=
  (1 / ((nx : ℂ) * (ny : ℂ))) *
    ∑ k ∈ Finset.range nx, ∑ l ∈ Finset.range ny,
      F k l * Complex.exp (2 * Real.pi * Complex.I *
        ((k : ℂ) * (a : ℂ) / (nx : ℂ) + (l : ℂ) * (b : ℂ) / (ny : ℂ)))

/-- One convolved plane of imConv lines 764-770 (non-Stokes layout):
cimage[:,:,ifreq] = abs(ifftshift(ifft2(fft2(psf) * fft2(image[:,:,ifreq])))).
numpy ifftshift rolls each axis by n/2, so entry (ix, iy) reads position
((ix + nx/2) mod nx, (iy + ny/2) mod ny) of the inverse transform.  The
PSF is generated at pixel scale (sizepix_x/1.496e13/dpc,
sizepix_y/1.496e13/dpc) (lines 737-743). -/
def convolvedPlane (c : ImageCube) (fwhm : ℝ × ℝ) (pa dpc : ℝ)
    (ix iy ifreq : ℕ) : ℝ :=
  Complex.abs
    (ifft2 c.nx c.ny
      (fun k l =>
        fft2 c.nx c.ny
          (fun a b =>
            (((getPSF c.nx c.ny fwhm pa
                (c.sizepix_x / 1.496e13 / dpc, c.sizepix_y / 1.496e13 / dpc)).psf a b : ℝ) : ℂ))
          k l *
        fft2 c.nx c.ny (fun a b => ((c.image a b ifreq : ℝ) : ℂ)) k l)
      ((ix + c.nx / 2) % c.nx) ((iy + c.ny / 2) % c.ny))

/-- imConv lines 710-787 for the non-Stokes (3-D) cube layout: the cube
is deep-copied, the image is replaced by the convolved planes scaled by
conv = sizepix_x*sizepix_y/(dpc*pc)^2/(fwhm[0]*fwhm[1]*pi/(4*log 2))
with pc = 3.0857200e18 (line 778), imageJyppix is recomputed as
image * 1e23 (line 780), and the psf, fwhm, pa and dpc fields record the
convolution parameters (lines 781-784).  The Stokes single-frequency
branch of the source never completes on loader-produced cubes (see the
shape model below) and is not part of this embedding. -/
def imConv (c : ImageCube) (fwhm : ℝ × ℝ) (pa dpc : ℝ) : ImageCube :=
  { c with
    image := fun ix iy ifreq =>
      convolvedPlane c fwhm pa dpc ix iy ifreq *
        (c.sizepix_x * c.sizepix_y / (dpc * 3.0857200e18) ^ 2 /
          (fwhm.1 * fwhm.2 * Real.pi / (4 * Real.log 2)))
    imageJyppix := fun ix iy ifreq =>
      convolvedPlane c fwhm pa dpc ix iy ifreq *
        (c.sizepix_x * c.sizepix_y / (dpc * 3.0857200e18) ^ 2 /
          (fwhm.1 * fwhm.2 * Real.pi / (4 * Real.log 2))) * 1e23
    psf := (getPSF c.nx c.ny fwhm pa
      (c.sizepix_x / 1.496e13 / dpc, c.sizepix_y / 1.496e13 / dpc)).psf
    fwhm := [fwhm.1, fwhm.2]
    pa := pa
    dpc := dpc }

/-- Scalar conversion factor as stated by the spec (section 4.2):
sizepix_x*sizepix_y / (distance_pc * pc_in_cm)^2 /
(fwhm_x*fwhm_y*pi/(4*ln 2)), with pc_in_cm = 3.0857200e18. -/
def convFactorSpec (sx sy dpc fx fy : ℝ) : ℝ :=
  sx * sy / (dpc * 3.0857200e18) ^ 2 / (fx * fy * Real.pi / (4 * Real.log 2))

/-- Mask radius of cmask lines 1212-1223: rad*1.496e13 cm when au is
set (au and arcsec together are rejected before this), rad*1.496e13*dpc
cm when arcsec is set, rad*sizepix_x cm otherwise. -/
def cmaskCrad (im : ImageCube) (rad : ℝ) (au arcsec : Bool) (dpc : ℝ) : ℝ :=
  if au then rad * 1.496e13
  else if arcsec then rad * 1.496e13 * dpc
  else rad * im.sizepix_x

/-- Masked cube of cmask lines 1225-1236: on a deep copy, for every
ix < nx the pixels iy < ny with sqrt(y[iy]^2 + x[ix]^2) <= crad are set
to 0 across all trailing channels (both the nfreq != 1 branch
res.image[ix,ii,:] = 0 and the nfreq == 1 branch res.image[ix,ii] = 0
zero every trailing axis of the loader's 3-D layout). -/
def cmaskCore (im : ImageCube) (rad : ℝ) (au arcsec : Bool) (dpc : ℝ) :
    ImageCube :=
  { im with
    image := fun ix iy k =>
      if ix < im.nx ∧ iy < im.ny ∧
          Real.sqrt (ycoord im iy ^ 2 + xcoord im ix ^ 2) ≤
            cmaskCrad im rad au arcsec dpc
      then 0 else im.image ix iy k }

/-- cmask lines 1190-1236: rejects au and arcsec set together
(lines 1213-1216 print an error and return None), otherwise returns the
masked deep copy. -/
def cmask (im : ImageCube) (rad : ℝ) (au arcsec : Bool) (dpc : ℝ) :
    Option ImageCube :=
  if au ∧ arcsec then none else some (cmaskCore im rad au arcsec dpc)

end

/-
Shape-level model of the numpy array mechanics that decide how imConv
treats a single-frequency cube (claim about lines 747-770 against the
loader layouts of lines 671 and 685).  Shapes are lists of axis
lengths, leading axis first.
-/

/-- Array shape produced by the ASCII branch of readImage: iformat 3
(Stokes) allocates zeros([nx,ny,4,nwav]) (line 685), iformat 1 allocates
zeros([nx,ny,nwav]) (line 671); the squeeze that would drop length-1
axes is commented out (lines 679, 698). -/
def asciiImageShape (stokes : Bool) (nx ny nwav : ℕ) : List ℕ :=
  if stokes then [nx, ny, 4, nwav] else [nx, ny, nwav]

/-- Shape of the numpy basic slice a[:, :, k]: the third axis is
consumed by the scalar index and every later axis survives; an array of
rank below 3 raises IndexError (modelled as none). -/
def sliceAxis2 (s : List ℕ) : Option (List ℕ) :=
  match s with
  | a :: b :: _ :: rest => some (a :: b :: rest)
  | _ => none

/-- Default axes transformed by numpy fft.fft2 on an array of the given
rank: the last two axes (rank-2, rank-1). -/
def fft2Axes (rank : ℕ) : ℕ × ℕ := (rank - 2, rank - 1)

/-- numpy pairwise broadcast of two axis lengths: equal lengths, or a
length-1 axis stretched to the other. -/
def bdim (a b : ℕ) : Option ℕ :=
  if a = b then some a else if a = 1 then some b else if b = 1 then some a else none

/-- numpy broadcast of two reversed shapes (trailing axis first). -/
def broadcastRev : List ℕ → List ℕ → Option (List ℕ)
  | [], t => some t
  | s, [] => some s
  | a :: s, b :: t =>
    match bdim a b, broadcastRev s t with
    | some d, some r => some (d :: r)
    | _, _ => none

/-- numpy broadcast of two shapes (leading axis first). -/
def npBroadcast (s t : List ℕ) : Option (List ℕ) :=
  (broadcastRev s.reverse t.reverse).map List.reverse

/-- Whether a value of the given reversed shape can be assigned into a
slot of the given reversed target shape (numpy assignment broadcasting:
the value may not have more axes than the target, and every trailing
axis must match the target or be 1). -/
def assignableRev : List ℕ → List ℕ → Bool
  | _, [] => true
  | [], _ :: _ => false
  | t :: ts, v :: vs => (v = t || v = 1) && assignableRev ts vs

/-- Whether numpy target[...] = value succeeds, by shape (leading axis
first). -/
def npAssignable (target value : List ℕ) : Bool :=
  assignableRev target.reverse value.reverse

/-
Heap model of the aliasing behaviour of imConv and cmask: numpy arrays
live in a heap of numbered cells, a cube holds references to its seven
arrays, deepcopy (lines 777 and 1225) copies every array into fresh
cells, and the derived cube is assembled from fresh cells only.
-/

/-- Heap cell payload: an array value, read as a 3-D function (1-D and
2-D arrays ignore the unused indices). -/
def Arr : Type := ℕ → ℕ → ℕ → ℝ

/-- Heap of array cells with an allocation cursor; cells at or above
next are unallocated. -/
structure Heap where
  data : ℕ → Arr
  next : ℕ

/-- In-place write of a whole array cell (numpy slice assignment into an
existing array). -/
def Heap.write (h : Heap) (r : ℕ) (v : Arr) : Heap :=
  { h with data := fun s => if s = r then v else h.data s }

/-- Allocation of a fresh array cell holding v, returning its
reference. -/
def Heap.alloc (h : Heap) (v : Arr) : Heap × ℕ :=
  ({ data := fun s => if s = h.next then v else h.data s, next := h.next + 1 },
   h.next)

/-- Image cube as a record of heap references plus its scalar fields
(the attributes set by radmc3dImage.__init__ and readImage). -/
structure HCube where
  imageRef : ℕ
  imageJyppixRef : ℕ
  xRef : ℕ
  yRef : ℕ
  freqRef : ℕ
  wavRef : ℕ
  psfRef : ℕ
  nx : ℕ
  ny : ℕ
  nfreq : ℕ
  sizepix_x : ℝ
  sizepix_y : ℝ
  stokes : Bool
  fwhm : List ℝ
  pa : ℝ
  dpc : ℝ

/-- The heap references held by a cube. -/
def HCube.refs (c : HCube) : List ℕ :=
  [c.imageRef, c.imageJyppixRef, c.xRef, c.yRef, c.freqRef, c.wavRef, c.psfRef]

/-- Pure view of a heap cube: the value-level ImageCube its references
currently denote. -/
noncomputable def pureOfH (h : Heap) (c : HCube) : ImageCube where
  nx := c.nx
  ny := c.ny
  nfreq := c.nfreq
  sizepix_x := c.sizepix_x
  sizepix_y := c.sizepix_y
  image := h.data c.imageRef
  imageJyppix := h.data c.imageJyppixRef
  wav := fun i => h.data c.wavRef i 0 0
  freq := fun i => h.data c.freqRef i 0 0
  stokes := c.stokes
  fwhm := c.fwhm
  pa := c.pa
  dpc := c.dpc
  psf := fun a b => h.data c.psfRef a b 0

/-- deepcopy(self) (imConv line 777, cmask line 1225): every array of
the cube is copied into a fresh heap cell; scalar fields are copied by
value. -/
def deepcopyH (h : Heap) (c : HCube) : Heap × HCube :=
  let p1 := h.alloc (h.data c.imageRef)
  let p2 := p1.1.alloc (h.data c.imageJyppixRef)
  let p3 := p2.1.alloc (h.data c.xRef)
  let p4 := p3.1.alloc (h.data c.yRef)
  let p5 := p4.1.alloc (h.data c.freqRef)
  let p6 := p5.1.alloc (h.data c.wavRef)
  let p7 := p6.1.alloc (h.data c.psfRef)
  (p7.1,
   { c with imageRef := p1.2, imageJyppixRef := p2.2, xRef := p3.2,
            yRef := p4.2, freqRef := p5.2, wavRef := p6.2, psfRef := p7.2 })

/-- imConv on the heap: the convolved planes are computed from the
source arrays, the cube is deep-copied, and the attribute assignments
res.image = cimage*conv, res.imageJyppix = res.image*1e23 and
res.psf = psf (lines 779-781) each bind a freshly allocated array. -/
noncomputable def imConvH (h : Heap) (c : HCube) (fwhm : ℝ × ℝ)
    (pa dpc : ℝ) : Heap × HCube :=
  let res := imConv (pureOfH h c) fwhm pa dpc
  let p0 := deepcopyH h c
  let q1 := p0.1.alloc res.image
  let q2 := q1.1.alloc res.imageJyppix
  let q3 := q2.1.alloc (fun a b _ => res.psf a b)
  (q3.1,
   { p0.2 with imageRef := q1.2, imageJyppixRef := q2.2, psfRef := q3.2,
               fwhm := res.fwhm, pa := pa, dpc := dpc })

/-- cmask on the heap once the flag check passed: the cube is
deep-copied and the mask is written in place into the copied image array
(res.image[ix,ii] = 0, lines 1230 and 1235). -/
noncomputable def cmaskHCore (h : Heap) (c : HCube) (rad : ℝ)
    (au arcsec : Bool) (dpc : ℝ) : Heap × HCube :=
  let p0 := deepcopyH h c
  (p0.1.write p0.2.imageRef (cmaskCore (pureOfH h c) rad au arcsec dpc).image,
   p0.2)

/-- cmask on the heap: au and arcsec together are rejected
(lines 1213-1216), otherwise the masked copy is produced. -/
noncomputable def cmaskH (h : Heap) (c : HCube) (rad : ℝ)
    (au arcsec : Bool) (dpc : ℝ) : Option (Heap × HCube) :=
  if au ∧ arcsec then none else some (cmaskHCore h c rad au arcsec dpc)

/-
Concrete inputs used by witnesses and counterexamples.
-/

/-- Per-triangle closure phase of getClosurePhase line 157 as a function
of the three visibility phases of the triangle: the phases are summed,
converted to degrees and wrapped. -/
noncomputable def closurePhaseOfPhases (ph : Fin 3 → ℝ) : ℝ :=
  cpWrapDeg ((∑ i, ph i) / Real.pi * 180)

/-- Uniform 4x4 single-frequency cube of the round-trip test:
nx = ny = 4, nfreq = 1, sizepix_x = sizepix_y = 1e12, image 1.0
everywhere. -/
noncomputable def cubeC1 : ImageCube where
  nx := 4
  ny := 4
  nfreq := 1
  sizepix_x := 1e12
  sizepix_y := 1e12
  image := fun _ _ _ => 1
  imageJyppix := fun _ _ _ => 1
  wav := fun _ => 1
  freq := fun _ => 1
  stokes := false
  fwhm := []
  pa := 0
  dpc := 0
  psf := fun _ _ => 0

/-- Uniform 2x2 single-frequency cube with unit pixels. -/
noncomputable def cubeC5 : ImageCube where
  nx := 2
  ny := 2
  nfreq := 1
  sizepix_x := 1
  sizepix_y := 1
  image := fun _ _ _ => 1
  imageJyppix := fun _ _ _ => 1
  wav := fun _ => 1
  freq := fun _ => 1
  stokes := false
  fwhm := []
  pa := 0
  dpc := 0
  psf := fun _ _ => 0

/-- Uniform 2x2 single-frequency cube with unit pixels (error-path
input). -/
noncomputable def cubeC7 : ImageCube where
  nx := 2
  ny := 2
  nfreq := 1
  sizepix_x := 1
  sizepix_y := 1
  image := fun _ _ _ => 1
  imageJyppix := fun _ _ _ => 1
  wav := fun _ => 1
  freq := fun _ => 1
  stokes := false
  fwhm := []
  pa := 0
  dpc := 0
  psf := fun _ _ => 0

/-- Uniform 2x2 single-frequency cube with unit pixels (mask input). -/
noncomputable def cubeC10 : ImageCube where
  nx := 2
  ny := 2
  nfreq := 1
  sizepix_x := 1
  sizepix_y := 1
  image := fun _ _ _ => 5
  imageJyppix := fun _ _ _ => 5
  wav := fun _ => 1
  freq := fun _ => 1
  stokes := false
  fwhm := []
  pa := 0
  dpc := 0
  psf := fun _ _ => 0

/-- Heap with seven allocated zero arrays. -/
noncomputable def heapC9 : Heap where
  data := fun _ => fun _ _ _ => 0
  next := 7

/-- Cube whose arrays occupy cells 0 through 6 of heapC9. -/
def hcubeC9 : HCube where
  imageRef := 0
  imageJyppixRef := 1
  xRef := 2
  yRef := 3
  freqRef := 4
  wavRef := 5
  psfRef := 6
  nx := 2
  ny := 2
  nfreq := 1
  sizepix_x := 1
  sizepix_y := 1
  stokes := false
  fwhm := []
  pa := 0
  dpc := 0

/-
Theorems.
-/

lemma pymod_eq_fract (x : ℝ) {y : ℝ} (hy : 0 < y) :
    pymod x y = y * Int.fract (x / y) := by
  unfold pymod Int.fract
  field_simp

lemma pymod_nonneg (x : ℝ) {y : ℝ} (hy : 0 < y) : 0 ≤ pymod x y := by
  rw [pymod_eq_fract x hy]
  exact mul_nonneg hy.le (Int.fract_nonneg _)

lemma pymod_lt (x : ℝ) {y : ℝ} (hy : 0 < y) : pymod x y < y := by
  rw [pymod_eq_fract x hy]
  calc y * Int.fract (x / y) < y * 1 := by
        exact mul_lt_mul_of_pos_left (Int.fract_lt_one _) hy
    _ = y := mul_one y

lemma pymod_sub_int (x : ℝ) (y : ℝ) : ∃ k : ℤ, pymod x y = x - y * k :=
  ⟨⌊x / y⌋, rfl⟩

/-- C2: for every triangle the closure phase equals the summed
visibility phases converted to degrees reduced modulo 360 (it differs
from the raw degree sum by an integer multiple of 360), lies in
(-180, 180], and at the wrap boundary a raw sum of 200 degrees becomes
-160 degrees while a raw sum of exactly 180 degrees stays 180 degrees. -/
theorem closure_phase_wrap_spec (ph : Fin 3 → ℝ) :
    (∃ k : ℤ, closurePhaseOfPhases ph = (∑ i, ph i) / Real.pi * 180 - 360 * k) ∧
    (-180 < closurePhaseOfPhases ph ∧ closurePhaseOfPhases ph ≤ 180) ∧
    cpWrapDeg 200 = -160 ∧ cpWrapDeg 180 = 180 := by
  have h360 : (0 : ℝ) < 360 := by norm_num
  have h200 : pymod 200 360 = 200 := by
    unfold pymod
    norm_num
  have h180 : pymod 180 360 = 180 := by
    unfold pymod
    norm_num
  refine ⟨?_, ?_, ?_, ?_⟩
  · unfold closurePhaseOfPhases cpWrapDeg
    set raw := (∑ i, ph i) / Real.pi * 180 with hraw
    by_cases h : 180 < pymod raw 360
    · refine ⟨⌊raw / 360⌋ + 1, ?_⟩
      rw [if_pos h]
      unfold pymod
      push_cast
      ring
    · refine ⟨⌊raw / 360⌋, ?_⟩
      rw [if_neg h]
      unfold pymod
      ring
  · unfold closurePhaseOfPhases cpWrapDeg
    set raw := (∑ i, ph i) / Real.pi * 180 with hraw
    have hnn := pymod_nonneg raw h360
    have hlt := pymod_lt raw h360
    by_cases h : 180 < pymod raw 360
    · rw [if_pos h]
      constructor <;> linarith
    · rw [if_neg h]
      push_neg at h
      constructor <;> linarith
  · unfold cpWrapDeg
    rw [h200, if_pos (by norm_num)]
    norm_num
  · unfold cpWrapDeg
    rw [h180, if_neg (by norm_num)]

lemma ampOf_eq_abs (z : ℂ) : ampOf z = Complex.abs z := by
  unfold ampOf
  rw [Complex.mul_conj, Complex.abs_ofReal,
    abs_of_nonneg (Complex.normSq_nonneg z), Complex.abs_apply]

/-- C6: for a nonzero visibility the returned amplitude is
sqrt(re^2 + im^2) = |V| and the returned phase is arccos(re/|V|),
replaced by 2*pi minus that value when im < 0, and it always lies in
[0, 2*pi). -/
theorem visibility_amp_phase_spec (z : ℂ) (hz : z ≠ 0) :
    ampOf z = Real.sqrt (z.re ^ 2 + z.im ^ 2) ∧
    ampOf z = Complex.abs z ∧
    phaseOf z =
      (if z.im < 0 then 2 * Real.pi - Real.arccos (z.re / Complex.abs z)
       else Real.arccos (z.re / Complex.abs z)) ∧
    0 ≤ phaseOf z ∧ phaseOf z < 2 * Real.pi := by
  have habs : ampOf z = Complex.abs z := ampOf_eq_abs z
  have hpos : 0 < Complex.abs z := Complex.abs.pos hz
  have hphase : phaseOf z =
      (if z.im < 0 then 2 * Real.pi - Real.arccos (z.re / Complex.abs z)
       else Real.arccos (z.re / Complex.abs z)) := by
    unfold phaseOf
    rw [habs]
  refine ⟨?_, habs, hphase, ?_, ?_⟩
  · rw [habs, Complex.abs_apply, Complex.normSq_apply]
    ring_nf
  · rw [hphase]
    by_cases him : z.im < 0
    · rw [if_pos him]
      have h1 : Real.arccos (z.re / Complex.abs z) ≤ Real.pi :=
        Real.arccos_le_pi _
      have h2 : 0 < Real.pi := Real.pi_pos
      linarith
    · rw [if_neg him]
      exact Real.arccos_nonneg _
  · rw [hphase]
    by_cases him : z.im < 0
    · rw [if_pos him]
      have hlt : z.re / Complex.abs z < 1 := by
        rw [div_lt_one hpos]
        have : |z.re| < Complex.abs z :=
          (Complex.abs_re_lt_abs).mpr (ne_of_lt him)
        calc z.re ≤ |z.re| := le_abs_self _
          _ < Complex.abs z := this
      have := Real.arccos_pos.mpr hlt
      linarith
    · rw [if_neg him]
      have h1 : Real.arccos (z.re / Complex.abs z) ≤ Real.pi :=
        Real.arccos_le_pi _
      have h2 : 0 < Real.pi := Real.pi_pos
      linarith

/-- Witness for C6 at the concrete visibility V = 1. -/
theorem visibility_amp_phase_spec_witness :
    (1 : ℂ) ≠ 0 ∧ 0 ≤ phaseOf 1 ∧ phaseOf 1 < 2 * Real.pi :=
  ⟨one_ne_zero, (visibility_amp_phase_spec 1 one_ne_zero).2.2.2.1,
    (visibility_amp_phase_spec 1 one_ne_zero).2.2.2.2⟩

/-- C7 counterexample: getVisibility called with a non-positive
distance (dpc = -1) and mismatched baseline/position-angle lengths
(3 baselines, 1 position angle) returns a normally computed result
instead of failing: the source validates neither condition, and numpy
silently broadcasts the single position angle. -/
theorem getVisibility_accepts_bad_args :
    ((-1 : ℝ) ≤ 0) ∧
    (([0, 0, 0] : List ℝ).length ≠ ([0] : List ℝ).length) ∧
    visOk (getVisibility cubeC7 [0, 0, 0] [0] (-1)) = true := by
  refine ⟨by norm_num, by decide, ?_⟩
  rfl

/-- C7 amended: getVisibility performs no argument validation.  It
fails only with the IndexError raised by l[1]/m[1] when an image axis
has fewer than two pixels, or with the numpy broadcasting error raised
when the wavelength loop runs and the position-angle count is neither 1
nor the baseline count; a non-positive distance is used silently and a
single position angle is silently recycled for every baseline. -/
theorem getVisibility_failure_characterisation (c : ImageCube)
    (bl pa : List ℝ) (dpc : ℝ) :
    visOk (getVisibility c bl pa dpc) = false ↔
      (c.nx < 2 ∨ c.ny < 2 ∨
        (1 ≤ c.nfreq ∧ pa.length ≠ 1 ∧ pa.length ≠ bl.length)) := by
  unfold getVisibility visOk
  split_ifs with h1 h2
  · constructor
    · intro _
      rcases h1 with h | h
      · exact Or.inl h
      · exact Or.inr (Or.inl h)
    · intro _
      rfl
  · constructor
    · intro _
      exact Or.inr (Or.inr h2)
    · intro _
      rfl
  · constructor
    · intro hfalse
      simp at hfalse
    · intro hcases
      push_neg at h2
      rcases hcases with h | h | h
      · exact absurd (Or.inl h) h1
      · exact absurd (Or.inr h) h1
      · exact absurd (h2 h.1 h.2.1) h.2.2

/-- C4: on the Stokes single-frequency cube produced by the loader
(shape [nx, ny, 4, 1], here nx = ny = 5) the imConv branch for
stokes and nfreq == 1 slices image[:,:,istokes], obtaining a rank-3
array of shape [5, 5, 1] instead of a 2-D (x, y) plane; fft.fft2 then
transforms the last two axes (1, 2) — the y axis and the length-1
frequency axis — rather than the (x, y) axes (0, 1); the product
f_psf * f_imag broadcasts [5, 5] against [5, 5, 1] to [5, 5, 5], and
that value cannot be assigned into the [5, 5] slice of cimage, so the
call fails.  The non-Stokes branch slices a genuine [5, 5] plane and is
well-formed. -/
theorem imConv_stokes_single_frequency_shape_bug :
    asciiImageShape true 5 5 1 = [5, 5, 4, 1] ∧
    sliceAxis2 (asciiImageShape true 5 5 1) = some [5, 5, 1] ∧
    fft2Axes 3 = (1, 2) ∧
    fft2Axes 3 ≠ (0, 1) ∧
    npBroadcast [5, 5] [5, 5, 1] = some [5, 5, 5] ∧
    npAssignable [5, 5] [5, 5, 5] = false ∧
    sliceAxis2 (asciiImageShape false 5 5 1) = some [5, 5] ∧
    fft2Axes 2 = (0, 1) ∧
    npAssignable [5, 5] [5, 5] = true := by
  decide

/-- C8: the cube returned by imConv carries the convolved planes scaled
by the single factor sizepix_x*sizepix_y/(dpc*pc_in_cm)^2/
(fwhm_x*fwhm_y*pi/(4*ln 2)) stated by the spec, its imageJyppix field is
recomputed as image * 1e23, and the psf, fwhm, position angle and
distance are recorded as provenance metadata. -/
theorem imConv_scaling_and_provenance (c : ImageCube) (fwhm : ℝ × ℝ)
    (pa dpc : ℝ) :
    (imConv c fwhm pa dpc).image = (fun ix iy ifreq =>
      convolvedPlane c fwhm pa dpc ix iy ifreq *
        convFactorSpec c.sizepix_x c.sizepix_y dpc fwhm.1 fwhm.2) ∧
    (imConv c fwhm pa dpc).imageJyppix = (fun ix iy ifreq =>
      (imConv c fwhm pa dpc).image ix iy ifreq * 1e23) ∧
    (imConv c fwhm pa dpc).psf = (getPSF c.nx c.ny fwhm pa
      (c.sizepix_x / 1.496e13 / dpc, c.sizepix_y / 1.496e13 / dpc)).psf ∧
    (imConv c fwhm pa dpc).fwhm = [fwhm.1, fwhm.2] ∧
    (imConv c fwhm pa dpc).pa = pa ∧
    (imConv c fwhm pa dpc).dpc = dpc :=
  ⟨rfl, rfl, rfl, rfl, rfl, rfl⟩


lemma psfAxis_center (n : ℕ) (d : ℝ) : psfAxis n d (n / 2) = 0 := by
  simp [psfAxis]

lemma psfRaw_center (nx ny : ℕ) (fwhm : ℝ × ℝ) (pa : ℝ) (pscale : ℝ × ℝ) :
    psfRaw nx ny fwhm pa pscale (nx / 2) (ny / 2) = 1 := by
  unfold psfRaw
  rw [psfAxis_center, psfAxis_center]
  simp

lemma getPSF_center (nx ny : ℕ) (fwhm : ℝ × ℝ) (pa : ℝ) (pscale : ℝ × ℝ) :
    (getPSF nx ny fwhm pa pscale).psf (nx / 2) (ny / 2) =
      2 * Real.pi * sigmaOf fwhm.1 * sigmaOf fwhm.2 := by
  show psfRaw nx ny fwhm pa pscale (nx / 2) (ny / 2) / psfNorm fwhm = _
  rw [psfRaw_center]
  unfold psfNorm
  exact one_div_one_div _

/-- C3 counterexample: for fwhm = (1, 1), pa = 0, unit pixel scale and
the even grid nx = ny = 2, the value of the normalized kernel at the
center pixel (nx/2, ny/2) = (1, 1) is pi/(4*ln 2), which is not 1:
dividing by norm = 1/(2*pi*sigma_x*sigma_y) leaves the center at the
reciprocal of norm, while the raw peak before the division is 1. -/
theorem getPSF_center_not_one :
    (getPSF 2 2 (1, 1) 0 (1, 1)).psf 1 1 = Real.pi / (4 * Real.log 2) ∧
    (getPSF 2 2 (1, 1) 0 (1, 1)).psf 1 1 ≠ 1 := by
  have hlog : (0 : ℝ) < Real.log 2 := Real.log_pos one_lt_two
  have hsq : Real.sqrt (2 * Real.log 2) * Real.sqrt (2 * Real.log 2) =
      2 * Real.log 2 := Real.mul_self_sqrt (by linarith)
  have hsqrtpos : (0 : ℝ) < Real.sqrt (2 * Real.log 2) :=
    Real.sqrt_pos.mpr (by linarith)
  have h8 : sigmaOf 1 * sigmaOf 1 = 1 / (8 * Real.log 2) := by
    unfold sigmaOf
    rw [div_mul_div_comm, one_mul]
    congr 1
    calc (2 * Real.sqrt (2 * Real.log 2)) * (2 * Real.sqrt (2 * Real.log 2))
        = 4 * (Real.sqrt (2 * Real.log 2) * Real.sqrt (2 * Real.log 2)) := by
          ring
      _ = 4 * (2 * Real.log 2) := by rw [hsq]
      _ = 8 * Real.log 2 := by ring
  have hval : (getPSF 2 2 (1, 1) 0 (1, 1)).psf 1 1 =
      Real.pi / (4 * Real.log 2) := by
    have h : (getPSF 2 2 (1, 1) 0 (1, 1)).psf 1 1 =
        2 * Real.pi * sigmaOf (1, 1).1 * sigmaOf (1, 1).2 :=
      getPSF_center 2 2 (1, 1) 0 (1, 1)
    rw [h]
    calc 2 * Real.pi * sigmaOf 1 * sigmaOf 1
        = 2 * Real.pi * (sigmaOf 1 * sigmaOf 1) := by ring
      _ = 2 * Real.pi * (1 / (8 * Real.log 2)) := by rw [h8]
      _ = Real.pi / (4 * Real.log 2) := by
          field_simp
          ring
  refine ⟨hval, ?_⟩
  rw [hval]
  intro h1
  have h4 : Real.pi = 4 * Real.log 2 := by
    have hne : (4 : ℝ) * Real.log 2 ≠ 0 := by positivity
    field_simp at h1
    linarith
  have hpi := Real.pi_gt_three
  have hl2 := Real.log_two_lt_d9
  rw [h4] at hpi
  linarith

/-- C3 amended: getPSF divides every kernel value by
norm = 1/(2*pi*sigma_x*sigma_y) with sigma = fwhm/(2*sqrt(2*ln 2)) per
axis; the kernel's peak value BEFORE the division is 1 (the raw
Gaussian at the center pixel nx/2, ny/2), and immediately after the
normalization the center value equals 2*pi*sigma_x*sigma_y, the
reciprocal of the normalization constant. -/
theorem getPSF_normalisation (nx ny : ℕ) (fwhm : ℝ × ℝ) (pa : ℝ)
    (pscale : ℝ × ℝ) (_hfx : 0 < fwhm.1) (_hfy : 0 < fwhm.2) :
    (∀ ix iy, (getPSF nx ny fwhm pa pscale).psf ix iy =
      psfRaw nx ny fwhm pa pscale ix iy / psfNorm fwhm) ∧
    psfNorm fwhm = 1 / (2 * Real.pi * sigmaOf fwhm.1 * sigmaOf fwhm.2) ∧
    psfRaw nx ny fwhm pa pscale (nx / 2) (ny / 2) = 1 ∧
    (getPSF nx ny fwhm pa pscale).psf (nx / 2) (ny / 2) =
      2 * Real.pi * sigmaOf fwhm.1 * sigmaOf fwhm.2 :=
  ⟨fun _ _ => rfl, rfl, psfRaw_center nx ny fwhm pa pscale,
    getPSF_center nx ny fwhm pa pscale⟩

/-- Witness for C3 at nx = ny = 4, fwhm = (1, 1), pa = 0, unit pixel
scale: the center pixel (2, 2) of the normalized kernel holds
2*pi*sigma*sigma. -/
theorem getPSF_normalisation_witness :
    (0 : ℝ) < 1 ∧ (getPSF 4 4 (1, 1) 0 (1, 1)).psf 2 2 =
      2 * Real.pi * sigmaOf 1 * sigmaOf 1 := by
  refine ⟨by norm_num, ?_⟩
  have h : (getPSF 4 4 (1, 1) 0 (1, 1)).psf 2 2 =
      2 * Real.pi * sigmaOf (1, 1).1 * sigmaOf (1, 1).2 :=
    (getPSF_normalisation 4 4 (1, 1) 0 (1, 1) (by norm_num)
      (by norm_num)).2.2.2
  exact h

/-- C10: for valid flag combinations (au and arcsec not both set) cmask
returns the masked copy in which an in-range pixel (ix, iy) of every
channel is zeroed exactly when sqrt(x[ix]^2 + y[iy]^2) <= crad, with
crad = rad*1.496e13 cm when au is set, rad*1.496e13*dpc cm when arcsec
is set and rad*sizepix_x cm otherwise, and keeps its original value
outside that radius. -/
theorem cmask_pixel_characterisation (im : ImageCube) (rad : ℝ)
    (au arcsec : Bool) (dpc : ℝ) (ix iy k : ℕ)
    (hflag : ¬(au = true ∧ arcsec = true))
    (hix : ix < im.nx) (hiy : iy < im.ny) :
    cmask im rad au arcsec dpc = some (cmaskCore im rad au arcsec dpc) ∧
    (cmaskCore im rad au arcsec dpc).image ix iy k =
      (if Real.sqrt (xcoord im ix ^ 2 + ycoord im iy ^ 2) ≤
          (if au then rad * 1.496e13
           else if arcsec then rad * 1.496e13 * dpc
           else rad * im.sizepix_x)
       then 0 else im.image ix iy k) := by
  constructor
  · unfold cmask
    rw [if_neg]
    simpa using hflag
  · show (if ix < im.nx ∧ iy < im.ny ∧
        Real.sqrt (ycoord im iy ^ 2 + xcoord im ix ^ 2) ≤
          cmaskCrad im rad au arcsec dpc
      then (0 : ℝ) else im.image ix iy k) = _
    rw [add_comm (ycoord im iy ^ 2) (xcoord im ix ^ 2)]
    unfold cmaskCrad
    simp [hix, hiy]

/-- Witness for C10 on a 2x2 cube with unit pixels, rad = 1 and neither
unit flag set: pixel (0, 0) is at distance sqrt(0.5) <= 1 from the
center and is zeroed. -/
theorem cmask_pixel_characterisation_witness :
    (0 < cubeC10.nx) ∧
    cmask cubeC10 1 false false 1 = some (cmaskCore cubeC10 1 false false 1) ∧
    (cmaskCore cubeC10 1 false false 1).image 0 0 0 =
      (if Real.sqrt (xcoord cubeC10 0 ^ 2 + ycoord cubeC10 0 ^ 2) ≤
          (if false then (1 : ℝ) * 1.496e13
           else if false then (1 : ℝ) * 1.496e13 * 1
           else (1 : ℝ) * cubeC10.sizepix_x)
       then 0 else cubeC10.image 0 0 0) := by
  have h := cmask_pixel_characterisation cubeC10 1 false false 1 0 0 0
    (by simp) (by norm_num [cubeC10]) (by norm_num [cubeC10])
  exact ⟨by norm_num [cubeC10], h.1, h.2⟩

lemma uSF_of_bl_zero (c : ImageCube) (bl pa : List ℝ) (ibl iwav : ℕ)
    (h : blAt bl ibl = 0) : uSF c bl pa ibl iwav = 0 := by
  simp [uSF, h]

lemma vSF_of_bl_zero (c : ImageCube) (bl pa : List ℝ) (ibl iwav : ℕ)
    (h : blAt bl ibl = 0) : vSF c bl pa ibl iwav = 0 := by
  simp [vSF, h]

lemma visSum_of_bl_zero (c : ImageCube) (bl pa : List ℝ) (dpc : ℝ)
    (ibl iwav : ℕ) (h : blAt bl ibl = 0) :
    visSum c bl pa dpc ibl iwav =
      (((∑ il ∈ Finset.range c.nx, ∑ iy ∈ Finset.range c.ny,
          c.image il iy iwav) * (dlOf c dpc * dmOf c dpc) : ℝ) : ℂ) := by
  unfold visSum
  have hp : ∀ il iy, pixPhase c bl pa dpc ibl iwav il iy = 0 := by
    intro il iy
    simp [pixPhase, uSF_of_bl_zero c bl pa ibl iwav h,
      vSF_of_bl_zero c bl pa ibl iwav h]
  have hterm : ∀ il iy,
      ((c.image il iy iwav : ℝ) : ℂ) *
        ((Real.cos (pixPhase c bl pa dpc ibl iwav il iy) : ℝ) +
          Complex.I * ((-Real.sin (pixPhase c bl pa dpc ibl iwav il iy) : ℝ) : ℂ)) =
        ((c.image il iy iwav : ℝ) : ℂ) := by
    intro il iy
    rw [hp il iy]
    simp
  calc ∑ il ∈ Finset.range c.nx,
        (∑ iy ∈ Finset.range c.ny,
          ((c.image il iy iwav : ℝ) : ℂ) *
            ((Real.cos (pixPhase c bl pa dpc ibl iwav il iy) : ℝ) +
              Complex.I * ((-Real.sin (pixPhase c bl pa dpc ibl iwav il iy) : ℝ) : ℂ))) *
          ((dlOf c dpc : ℝ) : ℂ) * ((dmOf c dpc : ℝ) : ℂ)
      = ∑ il ∈ Finset.range c.nx,
        (∑ iy ∈ Finset.range c.ny, ((c.image il iy iwav : ℝ) : ℂ)) *
          ((dlOf c dpc : ℝ) : ℂ) * ((dmOf c dpc : ℝ) : ℂ) := by
        refine Finset.sum_congr rfl fun il _ => ?_
        rw [Finset.sum_congr rfl fun iy _ => hterm il iy]
    _ = (∑ il ∈ Finset.range c.nx, ∑ iy ∈ Finset.range c.ny,
          ((c.image il iy iwav : ℝ) : ℂ)) *
          ((dlOf c dpc : ℝ) : ℂ) * ((dmOf c dpc : ℝ) : ℂ) := by
        rw [← Finset.sum_mul, ← Finset.sum_mul]
    _ = (((∑ il ∈ Finset.range c.nx, ∑ iy ∈ Finset.range c.ny,
          c.image il iy iwav) * (dlOf c dpc * dmOf c dpc) : ℝ) : ℂ) := by
        push_cast
        ring

lemma ampOf_ofReal_pos {r : ℝ} (hr : 0 < r) : ampOf ((r : ℝ) : ℂ) = r := by
  rw [ampOf_eq_abs, Complex.abs_ofReal, abs_of_pos hr]

lemma phaseOf_ofReal_pos {r : ℝ} (hr : 0 < r) : phaseOf ((r : ℝ) : ℂ) = 0 := by
  unfold phaseOf
  rw [Complex.ofReal_im, if_neg (lt_irrefl 0), Complex.ofReal_re,
    ampOf_ofReal_pos hr, div_self (ne_of_gt hr), Real.arccos_one]

lemma dlOf_pos (c : ImageCube) (dpc : ℝ) (hs : 0 < c.sizepix_x)
    (hd : 0 < dpc) : 0 < dlOf c dpc := by
  have h : dlOf c dpc =
      c.sizepix_x / 1.496e13 / dpc / 3600 / 180 * Real.pi := by
    unfold dlOf lcoord xcoord
    push_cast
    ring
  rw [h]
  have h1 : (0 : ℝ) < c.sizepix_x / 1.496e13 / dpc / 3600 / 180 := by
    apply div_pos
    apply div_pos
    apply div_pos
    apply div_pos hs
    · norm_num
    · exact hd
    · norm_num
    · norm_num
  exact mul_pos h1 Real.pi_pos

lemma dmOf_pos (c : ImageCube) (dpc : ℝ) (hs : 0 < c.sizepix_y)
    (hd : 0 < dpc) : 0 < dmOf c dpc := by
  have h : dmOf c dpc =
      c.sizepix_y / 1.496e13 / dpc / 3600 / 180 * Real.pi := by
    unfold dmOf mcoord ycoord
    push_cast
    ring
  rw [h]
  have h1 : (0 : ℝ) < c.sizepix_y / 1.496e13 / dpc / 3600 / 180 := by
    apply div_pos
    apply div_pos
    apply div_pos
    apply div_pos hs
    · norm_num
    · exact hd
    · norm_num
    · norm_num
  exact mul_pos h1 Real.pi_pos

/-- C5: for a cube with positive pixel sizes, at least two pixels per
axis and positive per-channel total intensity, getVisibility with the
single baseline [0] (any position angle, positive dpc) returns normally
and for every wavelength channel yields u = 0, v = 0, an amplitude
equal to the total flux (the pixel sum of the image times dl times dm)
and a phase of 0. -/
theorem getVisibility_zero_baseline (c : ImageCube) (pa0 dpc : ℝ)
    (hnx : 2 ≤ c.nx) (hny : 2 ≤ c.ny)
    (hsx : 0 < c.sizepix_x) (hsy : 0 < c.sizepix_y) (hd : 0 < dpc)
    (hT : ∀ iwav, iwav < c.nfreq →
      0 < ∑ il ∈ Finset.range c.nx, ∑ iy ∈ Finset.range c.ny,
        c.image il iy iwav) :
    getVisibility c [0] [pa0] dpc =
      Except.ok (visCompute c [0] [pa0] dpc) ∧
    ∀ iwav, iwav < c.nfreq →
      (visCompute c [0] [pa0] dpc).u 0 iwav = 0 ∧
      (visCompute c [0] [pa0] dpc).v 0 iwav = 0 ∧
      (visCompute c [0] [pa0] dpc).amp 0 iwav =
        (∑ il ∈ Finset.range c.nx, ∑ iy ∈ Finset.range c.ny,
          c.image il iy iwav) * (dlOf c dpc * dmOf c dpc) ∧
      (visCompute c [0] [pa0] dpc).phase 0 iwav = 0 := by
  have hb : blAt [0] 0 = 0 := rfl
  constructor
  · unfold getVisibility
    rw [if_neg (by omega), if_neg (by simp)]
  · intro iwav hiw
    have hpos : 0 < (∑ il ∈ Finset.range c.nx, ∑ iy ∈ Finset.range c.ny,
        c.image il iy iwav) * (dlOf c dpc * dmOf c dpc) :=
      mul_pos (hT iwav hiw)
        (mul_pos (dlOf_pos c dpc hsx hd) (dmOf_pos c dpc hsy hd))
    refine ⟨?_, ?_, ?_, ?_⟩
    · exact uSF_of_bl_zero c [0] [pa0] 0 iwav hb
    · exact vSF_of_bl_zero c [0] [pa0] 0 iwav hb
    · show ampOf (visSum c [0] [pa0] dpc 0 iwav) = _
      rw [visSum_of_bl_zero c [0] [pa0] dpc 0 iwav hb, ampOf_ofReal_pos hpos]
    · show phaseOf (visSum c [0] [pa0] dpc 0 iwav) = 0
      rw [visSum_of_bl_zero c [0] [pa0] dpc 0 iwav hb, phaseOf_ofReal_pos hpos]

/-- Witness for C5 on the uniform 2x2 single-frequency cube with unit
pixels, position angle 0 and dpc = 1. -/
theorem getVisibility_zero_baseline_witness :
    (0 : ℝ) < 1 ∧
    getVisibility cubeC5 [0] [0] 1 =
      Except.ok (visCompute cubeC5 [0] [0] 1) ∧
    (visCompute cubeC5 [0] [0] 1).u 0 0 = 0 ∧
    (visCompute cubeC5 [0] [0] 1).amp 0 0 =
      (∑ il ∈ Finset.range cubeC5.nx, ∑ iy ∈ Finset.range cubeC5.ny,
        cubeC5.image il iy 0) * (dlOf cubeC5 1 * dmOf cubeC5 1) ∧
    (visCompute cubeC5 [0] [0] 1).phase 0 0 = 0 := by
  have h := getVisibility_zero_baseline cubeC5 0 1
    (by norm_num [cubeC5]) (by norm_num [cubeC5])
    (by norm_num [cubeC5]) (by norm_num [cubeC5]) (by norm_num)
    (by
      intro iwav _
      show (0 : ℝ) < ∑ _il ∈ Finset.range cubeC5.nx,
        ∑ _iy ∈ Finset.range cubeC5.ny, (1 : ℝ)
      simp [cubeC5])
  have h0 := h.2 0 (by norm_num [cubeC5])
  exact ⟨by norm_num, h.1, h0.1, h0.2.2.1, h0.2.2.2⟩

/-- C1: the method name get_visibility invoked by getClosurePhase
(line 151) is not defined on the class radmc3dImage, so the call raises
an AttributeError before any closure phase is produced; with the call
dispatched to the defined method getVisibility, the intended
computation on the claim's input (uniform 4x4 single-frequency cube,
sizepix 1e12, degenerate triangle baseline [0,0,0], dpc = 1) yields a
closure phase of exactly 0 degrees. -/
theorem closure_phase_degenerate_triangle :
    ¬ ("get_visibility" ∈ radmc3dImageMethods) ∧
    closurePhasesFixed cubeC1 [[0, 0, 0]] [[0, 0, 0]] 1 0 0 = 0 := by
  constructor
  · decide
  · unfold closurePhasesFixed
    have ht : (0 : ℝ) < ∑ il ∈ Finset.range cubeC1.nx,
        ∑ iy ∈ Finset.range cubeC1.ny, cubeC1.image il iy 0 := by
      show (0 : ℝ) < ∑ _il ∈ Finset.range cubeC1.nx,
        ∑ _iy ∈ Finset.range cubeC1.ny, (1 : ℝ)
      simp [cubeC1]
    have hpos : 0 < (∑ il ∈ Finset.range cubeC1.nx,
        ∑ iy ∈ Finset.range cubeC1.ny, cubeC1.image il iy 0) *
          (dlOf cubeC1 1 * dmOf cubeC1 1) :=
      mul_pos ht
        (mul_pos (dlOf_pos cubeC1 1 (by norm_num [cubeC1]) one_pos)
          (dmOf_pos cubeC1 1 (by norm_num [cubeC1]) one_pos))
    have hphase : ∀ i ∈ Finset.range 3,
        (visCompute cubeC1 (([[0, 0, 0]] : List (List ℝ)).getD 0 [])
          (([[0, 0, 0]] : List (List ℝ)).getD 0 []) 1).phase i 0 = 0 := by
      intro i hi
      rw [Finset.mem_range] at hi
      have hb : blAt ([0, 0, 0] : List ℝ) i = 0 := by
        interval_cases i <;> rfl
      show phaseOf (visSum cubeC1 [0, 0, 0] [0, 0, 0] 1 i 0) = 0
      rw [visSum_of_bl_zero cubeC1 [0, 0, 0] [0, 0, 0] 1 i 0 hb,
        phaseOf_ofReal_pos hpos]
    rw [Finset.sum_congr rfl hphase]
    simp [cpWrapDeg, pymod]

lemma Heap.write_data_ne (h : Heap) (r : ℕ) (v : Arr) {s : ℕ}
    (hs : s ≠ r) : (h.write r v).data s = h.data s := by
  simp [Heap.write, hs]

lemma deepcopyH_data_lt (h : Heap) (c : HCube) {s : ℕ} (hs : s < h.next) :
    (deepcopyH h c).1.data s = h.data s := by
  simp only [deepcopyH, Heap.alloc]
  repeat rw [if_neg (by omega)]

lemma imConvH_data_lt (h : Heap) (c : HCube) (fwhm : ℝ × ℝ)
    (pa dpc : ℝ) {s : ℕ} (hs : s < h.next) :
    (imConvH h c fwhm pa dpc).1.data s = h.data s := by
  simp only [imConvH, deepcopyH, Heap.alloc]
  repeat rw [if_neg (by omega)]

lemma cmaskHCore_data_lt (h : Heap) (c : HCube) (rad : ℝ)
    (au arcsec : Bool) (dpc : ℝ) {s : ℕ} (hs : s < h.next) :
    (cmaskHCore h c rad au arcsec dpc).1.data s = h.data s := by
  simp only [cmaskHCore, deepcopyH, Heap.alloc, Heap.write]
  repeat rw [if_neg (by omega)]

lemma imConvH_refs_ge (h : Heap) (c : HCube) (fwhm : ℝ × ℝ)
    (pa dpc : ℝ) :
    ∀ rr ∈ (imConvH h c fwhm pa dpc).2.refs, h.next ≤ rr := by
  intro rr hrr
  simp only [imConvH, deepcopyH, Heap.alloc, HCube.refs, List.mem_cons,
    List.not_mem_nil, or_false] at hrr
  rcases hrr with h1 | h1 | h1 | h1 | h1 | h1 | h1 <;> omega

lemma cmaskHCore_refs_ge (h : Heap) (c : HCube) (rad : ℝ)
    (au arcsec : Bool) (dpc : ℝ) :
    ∀ rr ∈ (cmaskHCore h c rad au arcsec dpc).2.refs, h.next ≤ rr := by
  intro rr hrr
  simp only [cmaskHCore, deepcopyH, Heap.alloc, HCube.refs, List.mem_cons,
    List.not_mem_nil, or_false] at hrr
  rcases hrr with h1 | h1 | h1 | h1 | h1 | h1 | h1 <;> omega

/-- C9: on a heap where the source cube's arrays are allocated, imConv
and cmask leave every array cell of the source cube (image,
imageJyppix, x, y, freq, wav, psf; the scalar fields are copied by
value) unchanged, and the derived cube holds only freshly allocated
cells disjoint from the source's, so a subsequent write through any
reference of the derived cube leaves the source cube's data unchanged. -/
theorem imConv_cmask_frame (h : Heap) (c : HCube) (fwhm : ℝ × ℝ)
    (pa dpc rad dpcm : ℝ) (au arcsec : Bool)
    (hwf : ∀ r ∈ c.refs, r < h.next)
    (hflag : ¬(au = true ∧ arcsec = true)) :
    (∀ r ∈ c.refs, (imConvH h c fwhm pa dpc).1.data r = h.data r) ∧
    (∀ rr ∈ (imConvH h c fwhm pa dpc).2.refs, ∀ v : Arr, ∀ rs ∈ c.refs,
      (((imConvH h c fwhm pa dpc).1).write rr v).data rs = h.data rs) ∧
    cmaskH h c rad au arcsec dpcm =
      some (cmaskHCore h c rad au arcsec dpcm) ∧
    (∀ r ∈ c.refs, (cmaskHCore h c rad au arcsec dpcm).1.data r = h.data r) ∧
    (∀ rr ∈ (cmaskHCore h c rad au arcsec dpcm).2.refs, ∀ v : Arr,
      ∀ rs ∈ c.refs,
      (((cmaskHCore h c rad au arcsec dpcm).1).write rr v).data rs =
        h.data rs) := by
  refine ⟨?_, ?_, ?_, ?_, ?_⟩
  · intro r hr
    exact imConvH_data_lt h c fwhm pa dpc (hwf r hr)
  · intro rr hrr v rs hrs
    have h1 : rs < h.next := hwf rs hrs
    have h2 : h.next ≤ rr := imConvH_refs_ge h c fwhm pa dpc rr hrr
    calc (((imConvH h c fwhm pa dpc).1).write rr v).data rs
        = (imConvH h c fwhm pa dpc).1.data rs :=
          Heap.write_data_ne _ rr v (by omega)
      _ = h.data rs := imConvH_data_lt h c fwhm pa dpc h1
  · unfold cmaskH
    rw [if_neg]
    simpa using hflag
  · intro r hr
    exact cmaskHCore_data_lt h c rad au arcsec dpcm (hwf r hr)
  · intro rr hrr v rs hrs
    have h1 : rs < h.next := hwf rs hrs
    have h2 : h.next ≤ rr := cmaskHCore_refs_ge h c rad au arcsec dpcm rr hrr
    calc (((cmaskHCore h c rad au arcsec dpcm).1).write rr v).data rs
        = (cmaskHCore h c rad au arcsec dpcm).1.data rs :=
          Heap.write_data_ne _ rr v (by omega)
      _ = h.data rs := cmaskHCore_data_lt h c rad au arcsec dpcm h1

/-- Witness for C9 on a seven-cell heap whose cube occupies cells 0-6:
the source image cell is untouched by imConv and cmask returns the
masked copy. -/
theorem imConv_cmask_frame_witness :
    (imConvH heapC9 hcubeC9 (1, 1) 0 1).1.data 0 = heapC9.data 0 ∧
    cmaskH heapC9 hcubeC9 1 false false 1 =
      some (cmaskHCore heapC9 hcubeC9 1 false false 1) ∧
    (cmaskHCore heapC9 hcubeC9 1 false false 1).1.data 0 = heapC9.data 0 := by
  have h := imConv_cmask_frame heapC9 hcubeC9 (1, 1) 0 1 1 1 false false
    (by decide) (by decide)
  exact ⟨h.1 0 (by decide), h.2.2.1, h.2.2.2.1 0 (by decide)⟩
